import Mathlib

/-!
Verification of the intrusive doubly-linked list of `containers/include/IntrusiveListN.h`.

The C++ code is shallowly embedded: each `IntrusiveListHook` lives in a heap
`Heap = Nat → Hook` indexed by element identity, and every pointer write of the
source is one field-level heap update, performed in the source's statement
order.  A list object is the record `ListState` of its `m_head`, `m_tail` and
`m_size` fields.  Iterators are `Option Nat` (a hook pointer or the null end
iterator).  `size_t` arithmetic never leaves `[0, 2^64)` in any state
considered here, so sizes are plain `Nat`.
-/

namespace IntrusiveListN

/-- Embedding of `IntrusiveListHook`: the `prev`/`next` pointer pair. -/
structure Hook where
  prev : Option Nat
  next : Option Nat
deriving DecidableEq, Repr

/-- Embedding of `IntrusiveListHook::is_linked`: `prev != nullptr || next != nullptr`. -/
def Hook.is_linked (h : Hook) : Bool :=
  h.prev.isSome || h.next.isSome

/-- The heap of hooks, one per element identity. -/
abbrev Heap := Nat → Hook

/-- Write the `next` field of the hook of element `i`. -/
def setNext (h : Heap) (i : Nat) (v : Option Nat) : Heap :=
  Function.update h i { h i with next := v }

/-- Write the `prev` field of the hook of element `i`. -/
def setPrev (h : Heap) (i : Nat) (v : Option Nat) : Heap :=
  Function.update h i { h i with prev := v }

/-- Embedding of the list object's fields `m_head`, `m_tail`, `m_size`. -/
structure ListState where
  head : Option Nat
  tail : Option Nat
  size : Nat
deriving DecidableEq, Repr

/-- The three runtime errors thrown by the container. -/
inductive Err where
  | AlreadyLinked
  | EmptyContainer
  | InvalidPosition
deriving DecidableEq, Repr

@[simp] theorem setNext_prev (h : Heap) (i : Nat) (v : Option Nat) (j : Nat) :
    (setNext h i v j).prev = (h j).prev := by
  by_cases hj : j = i
  · subst hj; simp [setNext, Function.update_apply]
  · simp [setNext, Function.update_apply, hj]

@[simp] theorem setPrev_next (h : Heap) (i : Nat) (v : Option Nat) (j : Nat) :
    (setPrev h i v j).next = (h j).next := by
  by_cases hj : j = i
  · subst hj; simp [setPrev, Function.update_apply]
  · simp [setPrev, Function.update_apply, hj]

@[simp] theorem setNext_next_self (h : Heap) (i : Nat) (v : Option Nat) :
    (setNext h i v i).next = v := by
  simp [setNext, Function.update_apply]

@[simp] theorem setPrev_prev_self (h : Heap) (i : Nat) (v : Option Nat) :
    (setPrev h i v i).prev = v := by
  simp [setPrev, Function.update_apply]

theorem setNext_apply_of_ne (h : Heap) (i : Nat) (v : Option Nat) {j : Nat}
    (hj : j ≠ i) : setNext h i v j = h j := by
  simp [setNext, Function.update_apply, hj]

theorem setPrev_apply_of_ne (h : Heap) (i : Nat) (v : Option Nat) {j : Nat}
    (hj : j ≠ i) : setPrev h i v j = h j := by
  simp [setPrev, Function.update_apply, hj]

theorem setNext_next_of_ne (h : Heap) (i : Nat) (v : Option Nat) {j : Nat}
    (hj : j ≠ i) : (setNext h i v j).next = (h j).next := by
  rw [setNext_apply_of_ne h i v hj]

theorem setPrev_prev_of_ne (h : Heap) (i : Nat) (v : Option Nat) {j : Nat}
    (hj : j ≠ i) : (setPrev h i v j).prev = (h j).prev := by
  rw [setPrev_apply_of_ne h i v hj]

/-- Writing the value a field already has does not change the heap. -/
theorem setNext_self_value (h : Heap) (i : Nat) (hv : (h i).next = v) :
    setNext h i v = h := by
  have : { h i with next := v } = h i := by
    cases hh : h i with
    | mk p n => simp only [hh] at hv; simp [hv]
  rw [setNext, this, Function.update_eq_self]

theorem setPrev_self_value (h : Heap) (i : Nat) (hv : (h i).prev = v) :
    setPrev h i v = h := by
  have : { h i with prev := v } = h i := by
    cases hh : h i with
    | mk p n => simp only [hh] at hv; simp [hv]
  rw [setPrev, this, Function.update_eq_self]

/-- Embedding of `IntrusiveListIterator::operator++`:
`if (m_node) m_node = m_node->next`. -/
def iterInc (h : Heap) : Option Nat → Option Nat
  | none => none
  | some i => (h i).next

/-- Embedding of `IntrusiveListIterator::operator--`:
`if (m_node) m_node = m_node->prev`. -/
def iterDec (h : Heap) : Option Nat → Option Nat
  | none => none
  | some i => (h i).prev

/-- Forward iteration: dereference the cursor, then `operator++`, `k` times. -/
def visitN (h : Heap) : Option Nat → Nat → List Nat
  | _, 0 => []
  | none, _ + 1 => []
  | some i, k + 1 => i :: visitN h (iterInc h (some i)) k

/-- Backward iteration: dereference the cursor, then `operator--`, `k` times. -/
def visitPrevN (h : Heap) : Option Nat → Nat → List Nat
  | _, 0 => []
  | none, _ + 1 => []
  | some i, k + 1 => i :: visitPrevN h (iterDec h (some i)) k

/-- Embedding of `IntrusiveList::push_front` (lines 338-354). -/
def push_front (h : Heap) (L : ListState) (e : Nat) : Except Err (Heap × ListState) :=
  if (h e).is_linked then .error .AlreadyLinked
  else
    let h1 := setPrev h e none
    let h2 := setNext h1 e L.head
    let h3 := match L.head with
      | some hd => setPrev h2 hd (some e)
      | none => h2
    .ok (h3, ⟨some e, if L.tail = none then some e else L.tail, L.size + 1⟩)

/-- Embedding of `IntrusiveList::push_back` (lines 361-377). -/
def push_back (h : Heap) (L : ListState) (e : Nat) : Except Err (Heap × ListState) :=
  if (h e).is_linked then .error .AlreadyLinked
  else
    let h1 := setNext h e none
    let h2 := setPrev h1 e L.tail
    let h3 := match L.tail with
      | some t => setNext h2 t (some e)
      | none => h2
    .ok (h3, ⟨if L.head = none then some e else L.head, some e, L.size + 1⟩)

/-- Embedding of `IntrusiveList::insert` (lines 385-414); a position is the
hook pointer wrapped by the iterator, `none` being the end iterator. -/
def insert (h : Heap) (L : ListState) (pos : Option Nat) (e : Nat) :
    Except Err (Heap × ListState) :=
  if (h e).is_linked then .error .AlreadyLinked
  else if pos = L.head then push_front h L e
  else
    match pos with
    | none => push_back h L e
    | some p =>
      let h1 := setNext h e (some p)
      let h2 := setPrev h1 e ((h1 p).prev)
      match (h2 p).prev with
      | some q =>
        let h3 := setNext h2 q (some e)
        let h4 := setPrev h3 p (some e)
        .ok (h4, ⟨L.head, L.tail, L.size + 1⟩)
      | none =>
        let h3 := setPrev h2 p (some e)
        .ok (h3, ⟨some e, L.tail, L.size + 1⟩)

/-- Embedding of `IntrusiveList::pop_front` (lines 419-434).  The null-head
dereference that the C++ would perform in a corrupted state is completed
totally by leaving the state unchanged; no theorem relies on that branch. -/
def pop_front (h : Heap) (L : ListState) : Heap × ListState :=
  if L.size = 0 then (h, L)
  else
    match L.head with
    | none => (h, L)
    | some hd =>
      let newHead := (h hd).next
      let h1 := match newHead with
        | some nh => setPrev h nh none
        | none => h
      let newTail := match newHead with
        | some _ => L.tail
        | none => none
      let h2 := setPrev h1 hd none
      let h3 := setNext h2 hd none
      (h3, ⟨newHead, newTail, L.size - 1⟩)

/-- Embedding of `IntrusiveList::pop_back` (lines 439-453).  Note that the
source resets `m_tail` but, unlike `pop_front`, never resets `m_head`. -/
def pop_back (h : Heap) (L : ListState) : Heap × ListState :=
  if L.size = 0 ∨ L.tail = none then (h, L)
  else
    match L.tail with
    | none => (h, L)
    | some tl =>
      let newTail := (h tl).prev
      let h1 := match newTail with
        | some nt => setNext h nt none
        | none => h
      let h2 := setPrev h1 tl none
      let h3 := setNext h2 tl none
      (h3, ⟨L.head, newTail, L.size - 1⟩)

/-- Embedding of `IntrusiveList::erase` (lines 461-483); returns the iterator
to the following element alongside the new state. -/
def erase (h : Heap) (L : ListState) (pos : Option Nat) :
    Except Err (Heap × ListState × Option Nat) :=
  match pos with
  | none => .error .InvalidPosition
  | some i =>
    let nxt := (h i).next
    let step1 : Heap × Option Nat := match (h i).prev with
      | some pp => (setNext h pp ((h i).next), L.head)
      | none => (h, (h i).next)
    let h1 := step1.1
    let head' := step1.2
    let step2 : Heap × Option Nat := match (h1 i).next with
      | some nn => (setPrev h1 nn ((h1 i).prev), L.tail)
      | none => (h1, (h1 i).prev)
    let h2 := step2.1
    let tail' := step2.2
    let h3 := setNext h2 i none
    let h4 := setPrev h3 i none
    .ok (h4, ⟨head', tail', L.size - 1⟩, nxt)

/-- The write `if (hook.prev) hook.prev->next = hook.next` of the static
`remove`. -/
def removeStep1 (h : Heap) (e : Nat) : Heap :=
  match (h e).prev with
  | some pp => setNext h pp ((h e).next)
  | none => h

/-- The write `if (hook.next) hook.next->prev = hook.prev` of the static
`remove`, whose reads happen after `removeStep1`. -/
def removeStep2 (h1 : Heap) (e : Nat) : Heap :=
  match (h1 e).next with
  | some nn => setPrev h1 nn ((h1 e).prev)
  | none => h1

/-- Embedding of the static `IntrusiveList::remove` (lines 491-504).  The
member is `static`: it receives no list object, only the element, which the
type `Heap → Nat → Heap` records. -/
def remove (h : Heap) (e : Nat) : Heap :=
  if ¬ (h e).is_linked then h
  else setNext (setPrev (removeStep2 (removeStep1 h e) e) e none) e none

/-- A call of the static `remove` made while some list `L` is in scope: the
callee has no access to `L`, so the list fields pass through untouched. -/
def remove_call (h : Heap) (L : ListState) (e : Nat) : Heap × ListState :=
  (remove h e, L)

/-- Embedding of `IntrusiveList::merge` (lines 521-540). -/
def merge (h : Heap) (L other : ListState) : Heap × ListState × ListState :=
  if other.size = 0 then (h, L, other)
  else
    match L.tail with
    | some t =>
      let h1 := setNext h t other.head
      let h2 := match other.head with
        | some oh => setPrev h1 oh (some t)
        | none => h1
      (h2, ⟨L.head, other.tail, L.size + other.size⟩, ⟨none, none, 0⟩)
    | none =>
      (h, ⟨other.head, other.tail, L.size + other.size⟩, ⟨none, none, 0⟩)

/-- Embedding of the whole-list `IntrusiveList::splice` (lines 547-585). -/
def splice_list (h : Heap) (L other : ListState) (pos : Option Nat) :
    Heap × ListState × ListState :=
  if other.size = 0 then (h, L, other)
  else
    match pos with
    | none =>
      match L.tail with
      | some t =>
        let h1 := setNext h t other.head
        let h2 := match other.head with
          | some oh => setPrev h1 oh (some t)
          | none => h1
        (h2, ⟨L.head, other.tail, L.size + other.size⟩, ⟨none, none, 0⟩)
      | none =>
        (h, ⟨other.head, other.tail, L.size + other.size⟩, ⟨none, none, 0⟩)
    | some p =>
      let step1 : Heap × Option Nat := match (h p).prev with
        | some q =>
          let h1 := setNext h q other.head
          let h2 := match other.head with
            | some oh => setPrev h1 oh (some q)
            | none => h1
          (h2, L.head)
        | none => (h, other.head)
      let h2 := step1.1
      let head' := step1.2
      let h3 := setPrev h2 p other.tail
      let h4 := match other.tail with
        | some ot => setNext h3 ot (some p)
        | none => h3
      (h4, ⟨head', L.tail, L.size + other.size⟩, ⟨none, none, 0⟩)

/-- The node-collecting loop of the range splice (`while (it != last)`),
with fuel; `none` is the diverging loop of the source. -/
def runNodes (h : Heap) : Option Nat → Option Nat → Nat → Option (List Nat)
  | first, last, 0 => if first = last then some [] else none
  | first, last, fuel + 1 =>
    if first = last then some []
    else
      match first with
      | none => none
      | some i => (runNodes h ((h i).next) last fuel).map (i :: ·)

/-- Embedding of the range `IntrusiveList::splice` (lines 642-713).  The two
identical traversal loops of the source (block tail, then count) are the one
`runNodes` traversal; `none` marks the source's diverging or undefined
executions. -/
def splice_range (h : Heap) (L other : ListState) (pos first last : Option Nat)
    (fuel : Nat) : Option (Heap × ListState × ListState) :=
  if first = last then some (h, L, other)
  else
    match runNodes h first last fuel with
    | none => none
    | some nodes =>
      match first with
      | none => none
      | some f =>
        let bt := nodes.getLastD f
        let step1 : Heap × Option Nat := match (h f).prev with
          | some fp => (setNext h fp last, other.head)
          | none => (h, last)
        let h1 := step1.1
        let ohead' := step1.2
        let step2 : Heap × Option Nat := match last with
          | some l => (setPrev h1 l ((h1 f).prev), other.tail)
          | none => (h1, (h1 f).prev)
        let h2 := step2.1
        let otail' := step2.2
        let count := nodes.length
        let other' : ListState := ⟨ohead', otail', other.size - count⟩
        match pos with
        | none =>
          match L.tail with
          | some t =>
            let h3 := setNext h2 t (some f)
            let h4 := setPrev h3 f (some t)
            let h5 := setNext h4 bt none
            some (h5, ⟨L.head, some bt, L.size + count⟩, other')
          | none =>
            let h4 := setPrev h2 f none
            let h5 := setNext h4 bt none
            some (h5, ⟨some f, some bt, L.size + count⟩, other')
        | some p =>
          match (h2 p).prev with
          | some q =>
            let h3 := setNext h2 q (some f)
            let h4 := setPrev h3 f (some q)
            let h5 := setPrev h4 p (some bt)
            let h6 := setNext h5 bt (some p)
            some (h6, ⟨L.head, L.tail, L.size + count⟩, other')
          | none =>
            let h4 := setPrev h2 f none
            let h5 := setPrev h4 p (some bt)
            let h6 := setNext h5 bt (some p)
            some (h6, ⟨some f, L.tail, L.size + count⟩, other')

/-- The loop body of `IntrusiveList::remove_if` (lines 721-734): read the
element, advance, test the predicate, possibly `erase(--it)`, continue at the
saved successor. -/
def removeIfLoop (p : Nat → Bool) :
    Heap → ListState → Option Nat → Nat → Option (Except Err (Heap × ListState))
  | _, _, _, 0 => none
  | h, L, none, _ + 1 => some (.ok (h, L))
  | h, L, some i, fuel + 1 =>
    let nxt := (h i).next
    if p i then
      let target := iterDec h nxt
      match erase h L target with
      | .error err => some (.error err)
      | .ok (h', L', _) => removeIfLoop p h' L' nxt fuel
    else
      removeIfLoop p h L nxt fuel

/-- Embedding of `IntrusiveList::remove_if`, with fuel for the traversal. -/
def remove_if (h : Heap) (L : ListState) (p : Nat → Bool) (fuel : Nat) :
    Option (Except Err (Heap × ListState)) :=
  removeIfLoop p h L L.head fuel

/-- Fold of `push_back` over a list of elements, propagating the first error. -/
def pushAll (h : Heap) (L : ListState) : List Nat → Except Err (Heap × ListState)
  | [] => .ok (h, L)
  | e :: rest =>
    match push_back h L e with
    | .error err => .error err
    | .ok (h', L') => pushAll h' L' rest

/-! ## The representation predicate -/

/-- First element of a node list, or the given default pointer. -/
def headOr : List Nat → Option Nat → Option Nat
  | [], n => n
  | b :: _, _ => some b

/-- Last element of a node list, or the given default pointer. -/
def lastOr : List Nat → Option Nat → Option Nat
  | [], p => p
  | a :: rest, _ => lastOr rest (some a)

@[simp] theorem headOr_nil (n : Option Nat) : headOr [] n = n := rfl

@[simp] theorem headOr_cons (b : Nat) (l : List Nat) (n : Option Nat) :
    headOr (b :: l) n = some b := rfl

@[simp] theorem lastOr_nil (p : Option Nat) : lastOr [] p = p := rfl

@[simp] theorem lastOr_cons (a : Nat) (l : List Nat) (p : Option Nat) :
    lastOr (a :: l) p = lastOr l (some a) := rfl

theorem headOr_append (xs ys : List Nat) (n : Option Nat) :
    headOr (xs ++ ys) n = headOr xs (headOr ys n) := by
  cases xs <;> simp

theorem lastOr_append (xs ys : List Nat) (p : Option Nat) :
    lastOr (xs ++ ys) p = lastOr ys (lastOr xs p) := by
  induction xs generalizing p with
  | nil => simp
  | cons a rest ih => simp [ih]

theorem lastOr_concat (xs : List Nat) (e : Nat) (p : Option Nat) :
    lastOr (xs ++ [e]) p = some e := by
  rw [lastOr_append]; rfl

theorem mem_of_lastOr (xs : List Nat) (p t : Option Nat) (hne : xs ≠ [])
    (hl : lastOr xs p = t) : ∃ a, t = some a ∧ a ∈ xs := by
  induction xs generalizing p with
  | nil => exact absurd rfl hne
  | cons a rest ih =>
    cases hr : rest with
    | nil => exact ⟨a, by simpa [hr] using hl.symm, by simp⟩
    | cons b l =>
      have := ih (some a) (by simp [hr]) (by simpa [hr] using hl)
      obtain ⟨c, hc, hm⟩ := this
      exact ⟨c, hc, by simp [hr, hr ▸ hm]⟩

/-- The nodes `xs` form a doubly linked segment: the first node's `prev` is
`p`, consecutive nodes point at each other, and the last node's `next` is
`n`. -/
def dlseg (h : Heap) : Option Nat → List Nat → Option Nat → Prop
  | _, [], _ => True
  | p, a :: rest, n =>
    (h a).prev = p ∧ (h a).next = headOr rest n ∧ dlseg h (some a) rest n

instance dlsegDecidable (h : Heap) :
    ∀ (p : Option Nat) (xs : List Nat) (n : Option Nat), Decidable (dlseg h p xs n)
  | _, [], _ => .isTrue trivial
  | p, a :: rest, n =>
    have : Decidable (dlseg h (some a) rest n) := dlsegDecidable h (some a) rest n
    decidable_of_iff ((h a).prev = p ∧ (h a).next = headOr rest n ∧ dlseg h (some a) rest n)
      Iff.rfl

@[simp] theorem dlseg_nil (h : Heap) (p n : Option Nat) : dlseg h p [] n := trivial

theorem dlseg_cons (h : Heap) (p n : Option Nat) (a : Nat) (rest : List Nat) :
    dlseg h p (a :: rest) n ↔
      (h a).prev = p ∧ (h a).next = headOr rest n ∧ dlseg h (some a) rest n :=
  Iff.rfl

/-- A doubly linked list object in a consistent state holding exactly the
elements `xs`, in order. -/
structure Rep (h : Heap) (L : ListState) (xs : List Nat) : Prop where
  head_eq : L.head = headOr xs none
  tail_eq : L.tail = lastOr xs none
  size_eq : L.size = xs.length
  seg : dlseg h none xs none
  nodup : xs.Nodup

theorem Rep.nil_iff (h : Heap) (L : ListState) :
    Rep h L [] ↔ L = ⟨none, none, 0⟩ := by
  constructor
  · rintro ⟨h1, h2, h3, _, _⟩
    cases L
    simp_all [headOr, lastOr]
  · rintro rfl
    exact ⟨rfl, rfl, rfl, trivial, List.nodup_nil⟩

/-- Heaps agreeing on the nodes of a segment carry the same segment. -/
theorem dlseg_congr {h h' : Heap} {p n : Option Nat} {xs : List Nat}
    (agree : ∀ i ∈ xs, h' i = h i) (hs : dlseg h p xs n) : dlseg h' p xs n := by
  induction xs generalizing p with
  | nil => trivial
  | cons a rest ih =>
    obtain ⟨h1, h2, h3⟩ := hs
    have ha : h' a = h a := agree a (by simp)
    exact ⟨by rw [ha]; exact h1, by rw [ha]; exact h2,
      ih (fun i hi => agree i (by simp [hi])) h3⟩

theorem dlseg_setNext_not_mem {h : Heap} {p n : Option Nat} {xs : List Nat}
    {i : Nat} (v : Option Nat) (hi : i ∉ xs) (hs : dlseg h p xs n) :
    dlseg (setNext h i v) p xs n :=
  dlseg_congr (fun _j hj => setNext_apply_of_ne h i v (fun hji => hi (hji ▸ hj))) hs

theorem dlseg_setPrev_not_mem {h : Heap} {p n : Option Nat} {xs : List Nat}
    {i : Nat} (v : Option Nat) (hi : i ∉ xs) (hs : dlseg h p xs n) :
    dlseg (setPrev h i v) p xs n :=
  dlseg_congr (fun _j hj => setPrev_apply_of_ne h i v (fun hji => hi (hji ▸ hj))) hs

/-- Rewriting the last node's `next` field moves the segment's right boundary. -/
theorem dlseg_setNext_last {h : Heap} {p n : Option Nat} {xs : List Nat}
    {t : Nat} (v : Option Nat) (hlast : lastOr xs none = some t)
    (hnd : xs.Nodup) (hs : dlseg h p xs n) : dlseg (setNext h t v) p xs v := by
  induction xs generalizing p with
  | nil => trivial
  | cons a rest ih =>
    obtain ⟨h1, h2, h3⟩ := hs
    cases hr : rest with
    | nil =>
      subst hr
      obtain rfl : a = t := by simpa using hlast
      refine ⟨?_, ?_, trivial⟩
      · simp [h1]
      · simp
    | cons b l =>
      have hta : t ≠ a := by
        have hlast' : lastOr rest (some a) = some t := by simpa using hlast
        obtain ⟨c, hc, hm⟩ := mem_of_lastOr rest (some a) (some t) (by simp [hr]) hlast'
        obtain rfl : c = t := by simpa using hc.symm
        intro hctr
        exact (List.nodup_cons.mp hnd).1 (hctr ▸ hm)
      refine ⟨?_, ?_, ?_⟩
      · rw [setNext_prev]; exact h1
      · rw [setNext_next_of_ne h t v (Ne.symm hta)]
        rw [h2]; simp [hr]
      · have hlast' : lastOr rest (some a) = some t := by simpa using hlast
        exact hr ▸ ih (hr ▸ hlast') (hr ▸ (List.nodup_cons.mp hnd).2) (hr ▸ h3)

/-- Rewriting the first node's `prev` field moves the segment's left boundary. -/
theorem dlseg_setPrev_head {h : Heap} {p n : Option Nat} {xs : List Nat}
    {f : Nat} (v : Option Nat) (hhead : headOr xs none = some f)
    (hnd : xs.Nodup) (hs : dlseg h p xs n) : dlseg (setPrev h f v) v xs n := by
  cases xs with
  | nil => simp at hhead
  | cons a rest =>
    obtain rfl : a = f := by simpa using hhead
    obtain ⟨h1, h2, h3⟩ := hs
    refine ⟨by simp, by rw [setPrev_next]; exact h2, ?_⟩
    exact dlseg_setPrev_not_mem v (List.nodup_cons.mp hnd).1 h3

/-- Two segments that meet at their shared boundary concatenate. -/
theorem dlseg_append {h : Heap} {p n : Option Nat} {xs ys : List Nat}
    (hxs : dlseg h p xs (headOr ys n)) (hys : dlseg h (lastOr xs p) ys n) :
    dlseg h p (xs ++ ys) n := by
  induction xs generalizing p with
  | nil => simpa using hys
  | cons a rest ih =>
    obtain ⟨h1, h2, h3⟩ := hxs
    refine ⟨h1, ?_, ?_⟩
    · rw [h2]; exact (headOr_append rest ys n).symm
    · exact ih h3 (by simpa using hys)

/-- A concatenated segment splits at any point. -/
theorem dlseg_append_split {h : Heap} {p n : Option Nat} {xs ys : List Nat}
    (hs : dlseg h p (xs ++ ys) n) :
    dlseg h p xs (headOr ys n) ∧ dlseg h (lastOr xs p) ys n := by
  induction xs generalizing p with
  | nil => exact ⟨trivial, by simpa using hs⟩
  | cons a rest ih =>
    obtain ⟨h1, h2, h3⟩ := hs
    obtain ⟨ih1, ih2⟩ := ih h3
    refine ⟨⟨h1, ?_, ih1⟩, by simpa using ih2⟩
    rw [h2]
    cases rest <;> simp [headOr_append]

/-- Every node of a segment whose left boundary is a node is linked. -/
theorem dlseg_is_linked_of_some {h : Heap} {q : Nat} {n : Option Nat}
    {ys : List Nat} (hs : dlseg h (some q) ys n) :
    ∀ e ∈ ys, (h e).is_linked = true := by
  induction ys generalizing q with
  | nil => intro e he; simp at he
  | cons c rest ih =>
    obtain ⟨h1, _, h3⟩ := hs
    intro e he
    rcases List.mem_cons.mp he with rfl | hmem
    · simp [Hook.is_linked, h1]
    · exact ih h3 e hmem

@[simp] theorem visitN_zero (h : Heap) (c : Option Nat) : visitN h c 0 = [] := by
  cases c <;> rfl

@[simp] theorem visitN_succ_none (h : Heap) (k : Nat) : visitN h none (k + 1) = [] := rfl

@[simp] theorem visitN_succ_some (h : Heap) (i k : Nat) :
    visitN h (some i) (k + 1) = i :: visitN h (iterInc h (some i)) k := rfl

@[simp] theorem visitPrevN_zero (h : Heap) (c : Option Nat) : visitPrevN h c 0 = [] := by
  cases c <;> rfl

@[simp] theorem visitPrevN_succ_none (h : Heap) (k : Nat) :
    visitPrevN h none (k + 1) = [] := rfl

@[simp] theorem visitPrevN_succ_some (h : Heap) (i k : Nat) :
    visitPrevN h (some i) (k + 1) = i :: visitPrevN h (iterDec h (some i)) k := rfl

theorem runNodes_zero (h : Heap) (f l : Option Nat) :
    runNodes h f l 0 = if f = l then some [] else none := rfl

theorem runNodes_succ (h : Heap) (f l : Option Nat) (k : Nat) :
    runNodes h f l (k + 1) =
      if f = l then some []
      else
        match f with
        | none => none
        | some i => (runNodes h ((h i).next) l k).map (i :: ·) := rfl

/-- Forward traversal of a segment with fuel equal to its length lists its
nodes in order. -/
theorem visitN_of_dlseg {h : Heap} {p n : Option Nat} {xs : List Nat}
    (hs : dlseg h p xs n) : visitN h (headOr xs none) xs.length = xs := by
  induction xs generalizing p with
  | nil => rfl
  | cons a rest ih =>
    obtain ⟨_, h2, h3⟩ := hs
    show visitN h (some a) (rest.length + 1) = a :: rest
    rw [visitN_succ_some]
    cases rest with
    | nil => simp
    | cons b l =>
      have hstep : iterInc h (some a) = some b := by simp [iterInc, h2, headOr]
      rw [hstep]
      exact congrArg (a :: ·) (ih h3)

/-- Backward traversal from a segment's last node lists its nodes reversed. -/
theorem visitPrevN_of_dlseg {h : Heap} (xs : List Nat) :
    ∀ {n : Option Nat} {t : Nat}, dlseg h none xs n → lastOr xs none = some t →
      visitPrevN h (some t) xs.length = xs.reverse := by
  induction xs using List.reverseRecOn with
  | nil => intro n t _ hlast; simp at hlast
  | append_singleton ys e ih =>
    intro n t hs hlast
    obtain ⟨hy, he⟩ := dlseg_append_split hs
    have het : e = t := by
      have hl := lastOr_concat ys e none
      rw [hlast] at hl
      simpa using hl.symm
    subst het
    obtain ⟨hprev, _, _⟩ := he
    have hlen : (ys ++ [e]).length = ys.length + 1 := by simp
    rw [hlen, visitPrevN_succ_some]
    have hdec : iterDec h (some e) = lastOr ys none := by simp [iterDec, hprev]
    rw [hdec]
    by_cases hysnil : ys = []
    · subst hysnil; simp
    · obtain ⟨c, hc, _⟩ := mem_of_lastOr ys none (lastOr ys none) hysnil rfl
      rw [hc, ih hy hc]
      simp

/-- Forward fuelled traversal that stops exactly at `last` collects the
segment's nodes. -/
theorem runNodes_of_dlseg {h : Heap} {p : Option Nat} {xs : List Nat}
    {last : Option Nat} (hs : dlseg h p xs last)
    (hlast : ∀ a ∈ xs, last ≠ some a) :
    ∀ fuel, xs.length ≤ fuel → runNodes h (headOr xs last) last fuel = some xs := by
  induction xs generalizing p with
  | nil =>
    intro fuel _
    cases fuel with
    | zero => simp [runNodes_zero]
    | succ k => simp [runNodes_succ]
  | cons a rest ih =>
    obtain ⟨_, h2, h3⟩ := hs
    intro fuel hfuel
    cases fuel with
    | zero => simp at hfuel
    | succ f =>
      have hne : (some a : Option Nat) ≠ last := fun hctr =>
        hlast a (by simp) hctr.symm
      show runNodes h (some a) last (f + 1) = some (a :: rest)
      rw [runNodes_succ, if_neg hne]
      have hrest : runNodes h ((h a).next) last f = some rest := by
        rw [h2]
        exact ih h3 (fun b hb => hlast b (by simp [hb])) f
          (by simpa using Nat.le_of_succ_le_succ hfuel)
      show (runNodes h ((h a).next) last f).map (a :: ·) = some (a :: rest)
      rw [hrest]
      rfl

/-! ## Operation-level lemmas -/

theorem is_linked_false_iff (hk : Hook) :
    hk.is_linked = false ↔ hk.prev = none ∧ hk.next = none := by
  cases hk with
  | mk p n => cases p <;> cases n <;> simp [Hook.is_linked]

theorem lastOr_mem (xs : List Nat) (t : Nat) (hl : lastOr xs none = some t) :
    t ∈ xs := by
  cases hxs : xs with
  | nil => rw [hxs] at hl; simp at hl
  | cons a l =>
    obtain ⟨c, hc, hm⟩ := mem_of_lastOr xs none (some t) (by simp [hxs]) (hxs ▸ hl)
    obtain rfl : t = c := by simpa using hc
    exact hxs ▸ hm

/-- Successful `push_back` of a fresh, unlinked element appends it to the
represented sequence; hooks of nodes other than the new element and the old
tail are untouched. -/
theorem push_back_rep {h : Heap} {L : ListState} {xs : List Nat} {e : Nat}
    (hrep : Rep h L xs) (hmem : e ∉ xs) (hfree : (h e).is_linked = false) :
    ∃ h', push_back h L e =
        .ok (h', ⟨if L.head = none then some e else L.head, some e, L.size + 1⟩) ∧
      Rep h' ⟨if L.head = none then some e else L.head, some e, L.size + 1⟩ (xs ++ [e]) ∧
      ∀ j, j ∉ xs → j ≠ e → h' j = h j := by
  obtain ⟨hprev_e, hnext_e⟩ := (is_linked_false_iff (h e)).mp hfree
  obtain ⟨hhead, htail, hsize, hseg, hnodup⟩ := hrep
  cases hxs : xs with
  | nil =>
    subst hxs
    simp only [headOr_nil] at hhead
    simp only [lastOr_nil] at htail
    refine ⟨setPrev (setNext h e none) e none, ?_, ?_, ?_⟩
    · simp [push_back, hfree, htail]
    · refine ⟨by simp [hhead], by simp, by simp [hsize], ?_, by simp⟩
      refine ⟨by simp, ?_, trivial⟩
      show (setPrev (setNext h e none) e none e).next = none
      rw [setPrev_next, setNext_next_self]
    · intro j _ hje
      rw [setPrev_apply_of_ne _ _ _ hje, setNext_apply_of_ne _ _ _ hje]
  | cons x rest =>
    subst hxs
    obtain ⟨t, ht, htm⟩ :=
      mem_of_lastOr (x :: rest) none (lastOr (x :: rest) none) (by simp) rfl
    have hte : t ≠ e := fun hctr => hmem (hctr ▸ htm)
    have htail' : L.tail = some t := by rw [htail, ht]
    set h1 := setNext h e none with hh1
    set h2 := setPrev h1 e L.tail with hh2
    set h3 := setNext h2 t (some e) with hh3
    have hpb : push_back h L e =
        .ok (h3, ⟨if L.head = none then some e else L.head, some e, L.size + 1⟩) := by
      simp [push_back, hfree, htail', hh1, hh2, hh3]
    refine ⟨h3, hpb, ?_, ?_⟩
    · have hseg1 : dlseg h1 none (x :: rest) none := dlseg_setNext_not_mem none hmem hseg
      have hseg2 : dlseg h2 none (x :: rest) none := dlseg_setPrev_not_mem _ hmem hseg1
      have hseg3 : dlseg h3 none (x :: rest) (some e) :=
        dlseg_setNext_last (some e) (by rw [ht]) hnodup hseg2
      have hsegE : dlseg h3 (lastOr (x :: rest) none) [e] none := by
        rw [ht]
        refine ⟨?_, ?_, trivial⟩
        · show (h3 e).prev = some t
          rw [hh3, setNext_apply_of_ne _ _ _ (fun hctr => hte hctr.symm)]
          rw [hh2, setPrev_prev_self]
          exact htail'
        · show (h3 e).next = none
          rw [hh3, setNext_apply_of_ne _ _ _ (fun hctr => hte hctr.symm)]
          rw [hh2, setPrev_next, hh1, setNext_next_self]
      refine ⟨?_, ?_, ?_, ?_, ?_⟩
      · rw [hhead]; simp [headOr]
      · rw [lastOr_concat]
      · simp [hsize]
      · exact dlseg_append (by simpa using hseg3) hsegE
      · rw [List.nodup_append]
        refine ⟨hnodup, List.nodup_singleton e, fun a ha hb => ?_⟩
        obtain rfl : a = e := by simpa using hb
        exact hmem ha
    · intro j hjxs hje
      have hjt : j ≠ t := fun hctr => hjxs (hctr ▸ htm)
      rw [hh3, setNext_apply_of_ne _ _ _ hjt, hh2, setPrev_apply_of_ne _ _ _ hje,
        hh1, setNext_apply_of_ne _ _ _ hje]

theorem hook_eq_none_none (hk : Hook) (hp : hk.prev = none) (hn : hk.next = none) :
    hk = ⟨none, none⟩ := by
  cases hk with
  | mk p n => simp_all

theorem Rep.empty (h : Heap) : Rep h ⟨none, none, 0⟩ [] :=
  ⟨rfl, rfl, rfl, trivial, List.nodup_nil⟩

/-- Folding `push_back` over fresh, unlinked, pairwise-distinct elements
succeeds and appends them all to the represented sequence. -/
theorem pushAll_rep :
    ∀ (es : List Nat) {h : Heap} {L : ListState} {xs : List Nat},
      Rep h L xs → es.Nodup → (∀ e ∈ es, e ∉ xs ∧ (h e).is_linked = false) →
      ∃ h' L', pushAll h L es = .ok (h', L') ∧ Rep h' L' (xs ++ es) := by
  intro es
  induction es with
  | nil =>
    intro h L xs hrep _ _
    exact ⟨h, L, rfl, by simpa using hrep⟩
  | cons e rest ih =>
    intro h L xs hrep hnd hfresh
    obtain ⟨hmem, hfree⟩ := hfresh e (by simp)
    obtain ⟨h1, heq, hrep1, hframe⟩ := push_back_rep hrep hmem hfree
    have hfresh1 : ∀ e' ∈ rest, e' ∉ xs ++ [e] ∧ (h1 e').is_linked = false := by
      intro e' he'
      have hne : e' ≠ e := by
        intro hctr
        exact (List.nodup_cons.mp hnd).1 (hctr ▸ he')
      have hnx : e' ∉ xs := (hfresh e' (by simp [he'])).1
      refine ⟨?_, ?_⟩
      · simp [hnx, hne]
      · rw [hframe e' hnx hne]
        exact (hfresh e' (by simp [he'])).2
    obtain ⟨h', L', heq', hrep'⟩ := ih hrep1 (List.nodup_cons.mp hnd).2 hfresh1
    refine ⟨h', L', ?_, by simpa using hrep'⟩
    show pushAll h L (e :: rest) = .ok (h', L')
    rw [pushAll, heq]
    exact heq'

/-- C8: after pushing distinct fresh elements into an initially empty list
with `push_back`, forward iteration from begin lists them in push order and
backward iteration from the last element lists them reversed. -/
theorem C8_push_back_round_trip (es : List Nat) (h0 : Heap) (hnd : es.Nodup)
    (hfresh : ∀ e ∈ es, (h0 e).is_linked = false) :
    ∃ h' L', pushAll h0 ⟨none, none, 0⟩ es = .ok (h', L') ∧
      visitN h' L'.head L'.size = es ∧
      ∀ t, L'.tail = some t → visitPrevN h' (some t) L'.size = es.reverse := by
  obtain ⟨h', L', heq, hrep⟩ :=
    pushAll_rep es (Rep.empty h0) hnd (fun e he => ⟨by simp, hfresh e he⟩)
  rw [List.nil_append] at hrep
  refine ⟨h', L', heq, ?_, ?_⟩
  · rw [hrep.head_eq, hrep.size_eq]
    exact visitN_of_dlseg hrep.seg
  · intro t ht
    rw [hrep.size_eq]
    exact visitPrevN_of_dlseg es hrep.seg (hrep.tail_eq ▸ ht)

theorem C8_push_back_round_trip_witness :
    ([1, 2, 3] : List Nat).Nodup ∧
    (∀ e ∈ ([1, 2, 3] : List Nat),
      (((fun _ => ⟨none, none⟩ : Heap)) e).is_linked = false) ∧
    ∃ h' L', pushAll (fun _ => ⟨none, none⟩ : Heap) ⟨none, none, 0⟩ [1, 2, 3] = .ok (h', L') ∧
      visitN h' L'.head L'.size = [1, 2, 3] ∧
      ∀ t, L'.tail = some t → visitPrevN h' (some t) L'.size = [3, 2, 1] := by
  refine ⟨by decide, by decide, ?_⟩
  have := C8_push_back_round_trip [1, 2, 3] (fun _ => ⟨none, none⟩)
    (by decide) (by decide)
  simpa using this

/-- C1, as stated, is false: the sole element of list A has an unlinked hook
(`prev = next = none`), so `is_linked()` is `false` and pushing it into
another list B succeeds instead of failing with `AlreadyLinked`. -/
theorem C1_sole_member_push_succeeds :
    Rep (fun _ => ⟨none, none⟩) ⟨some 0, some 0, 1⟩ [0] ∧
    (push_back (fun _ => ⟨none, none⟩ : Heap) ⟨none, none, 0⟩ 0).isOk = true := by
  refine ⟨⟨rfl, rfl, rfl, ?_, by simp⟩, rfl⟩
  exact ⟨rfl, rfl, trivial⟩

/-- C1 (amended): `push_front`, `push_back` and `insert` fail with
`AlreadyLinked` (mutating nothing) exactly when the element's hook
`is_linked()`, and every member of a list of length at least two is linked. -/
theorem C1_already_linked_guard (h : Heap) (L : ListState) (e : Nat) :
    ((h e).is_linked = true →
      push_front h L e = .error .AlreadyLinked ∧
      push_back h L e = .error .AlreadyLinked ∧
      ∀ pos, insert h L pos e = .error .AlreadyLinked) ∧
    (∀ xs, Rep h L xs → 2 ≤ xs.length → e ∈ xs → (h e).is_linked = true) := by
  constructor
  · intro hl
    refine ⟨?_, ?_, fun pos => ?_⟩ <;> simp [push_front, push_back, insert, hl]
  · intro xs hrep hlen hmem
    match xs, hlen with
    | a :: b :: rest, _ =>
      obtain ⟨_, h2, h3⟩ := hrep.seg
      rcases List.mem_cons.mp hmem with rfl | hmem'
      · simp [Hook.is_linked, h2]
      · exact dlseg_is_linked_of_some h3 e hmem'

theorem C1_already_linked_guard_witness :
    ((fun j => if j = 0 then (⟨none, some 1⟩ : Hook)
      else if j = 1 then ⟨some 0, none⟩ else ⟨none, none⟩ : Heap) 0).is_linked = true ∧
    push_back (fun j => if j = 0 then (⟨none, some 1⟩ : Hook)
      else if j = 1 then ⟨some 0, none⟩ else ⟨none, none⟩)
      ⟨none, none, 0⟩ 0 = .error .AlreadyLinked := by
  refine ⟨by decide, ?_⟩
  exact ((C1_already_linked_guard _ ⟨none, none, 0⟩ 0).1 (by decide)).2.1

/-- C2, at the failing input: `remove_if` on the well-formed one-element list
`[0]` with an always-true predicate fails with `InvalidPosition` instead of
erasing the element, because `++it` reaches the end iterator, `--it` on the
end iterator is a no-op, and `erase(end)` throws. -/
theorem C2_remove_if_last_element_error :
    Rep (fun _ => ⟨none, none⟩) ⟨some 0, some 0, 1⟩ [0] ∧
    remove_if (fun _ => ⟨none, none⟩) ⟨some 0, some 0, 1⟩ (fun _ => true) 5 =
      some (.error .InvalidPosition) := by
  refine ⟨⟨rfl, rfl, rfl, ⟨rfl, rfl, trivial⟩, by simp⟩, rfl⟩

/-- C4, at the failing input: pushing one element and popping it with
`pop_back` leaves `size = 0` and `tail = none` but `head` still pointing at
the removed element's hook, because `pop_back` never resets `m_head`. -/
theorem C4_pop_back_stale_head :
    (match push_back (fun _ => ⟨none, none⟩ : Heap) ⟨none, none, 0⟩ 0 with
     | .ok (h1, L1) => (pop_back h1 L1).2
     | .error _ => ⟨none, none, 0⟩) = ⟨some 0, none, 0⟩ ∧
    (⟨some 0, none, 0⟩ : ListState).size = 0 ∧
    (⟨some 0, none, 0⟩ : ListState).head ≠ none := by
  refine ⟨rfl, rfl, by simp⟩

/-- C6: pushing an unlinked element into an empty list (via `push_front` or
`push_back`) makes it the sole member — the list represents `[e]` — while its
hook stays `⟨none, none⟩`, so `is_linked()` reports `false`. -/
theorem C6_sole_element_unlinked (h : Heap) (L : ListState) (e : Nat)
    (hhead : L.head = none) (htail : L.tail = none) (hsize : L.size = 0)
    (hfree : (h e).is_linked = false) :
    (∃ h', push_back h L e = .ok (h', ⟨some e, some e, 1⟩) ∧
      Rep h' ⟨some e, some e, 1⟩ [e] ∧ h' e = ⟨none, none⟩ ∧
      (h' e).is_linked = false) ∧
    (∃ h', push_front h L e = .ok (h', ⟨some e, some e, 1⟩) ∧
      Rep h' ⟨some e, some e, 1⟩ [e] ∧ h' e = ⟨none, none⟩ ∧
      (h' e).is_linked = false) := by
  constructor
  · have he' : (setPrev (setNext h e none) e L.tail) e = ⟨none, none⟩ := by
      refine hook_eq_none_none _ ?_ ?_
      · rw [setPrev_prev_self]; exact htail
      · rw [setPrev_next, setNext_next_self]
    refine ⟨setPrev (setNext h e none) e L.tail, ?_, ?_, he', by rw [he']; rfl⟩
    · simp [push_back, hfree, htail, hhead, hsize]
    · exact ⟨rfl, rfl, rfl, ⟨by rw [he'], by rw [he']; rfl, trivial⟩, by simp⟩
  · have he' : (setNext (setPrev h e none) e L.head) e = ⟨none, none⟩ := by
      refine hook_eq_none_none _ ?_ ?_
      · rw [setNext_prev, setPrev_prev_self]
      · rw [setNext_next_self]; exact hhead
    refine ⟨setNext (setPrev h e none) e L.head, ?_, ?_, he', by rw [he']; rfl⟩
    · simp [push_front, hfree, htail, hhead, hsize]
    · exact ⟨rfl, rfl, rfl, ⟨by rw [he'], by rw [he']; rfl, trivial⟩, by simp⟩

theorem C6_sole_element_unlinked_witness :
    ∃ h', push_back (fun _ => ⟨none, none⟩ : Heap) ⟨none, none, 0⟩ 7 =
        .ok (h', ⟨some 7, some 7, 1⟩) ∧
      Rep h' ⟨some 7, some 7, 1⟩ [7] ∧ h' 7 = ⟨none, none⟩ ∧
      (h' 7).is_linked = false :=
  (C6_sole_element_unlinked (fun _ => ⟨none, none⟩) ⟨none, none, 0⟩ 7
    rfl rfl rfl rfl).1

/-- C9: the static `remove(e)` reads and writes no list's `head`/`tail`/`size`
(its embedding does not even receive a list state, so any list in scope passes
through unchanged, still referencing `e` if it did); on the heap it only
clears `e`'s own hook and rewrites the hooks of `e`'s two neighbours. -/
theorem C9_remove_frame (h : Heap) (e : Nat) (L : ListState) :
    (remove_call h L e).2 = L ∧
    (L.head = some e → (remove_call h L e).2.head = some e) ∧
    (L.tail = some e → (remove_call h L e).2.tail = some e) ∧
    (remove h e) e = ⟨none, none⟩ ∧
    ∀ j, j ≠ e → (h e).prev ≠ some j → (h e).next ≠ some j →
      remove h e j = h j := by
  have h1j : ∀ j, (h e).prev ≠ some j → removeStep1 h e j = h j := by
    intro j hjp
    cases hp : (h e).prev with
    | none => simp [removeStep1, hp]
    | some pp =>
      have hjpp : j ≠ pp := fun hctr => hjp (by rw [hp, hctr])
      simp only [removeStep1, hp]
      exact setNext_apply_of_ne _ _ _ hjpp
  have h1e_next : (removeStep1 h e e).next = (h e).next := by
    cases hp : (h e).prev with
    | none => simp [removeStep1, hp]
    | some pp =>
      simp only [removeStep1, hp]
      by_cases hpe : e = pp
      · subst hpe; rw [setNext_next_self]
      · rw [setNext_apply_of_ne _ _ _ hpe]
  refine ⟨rfl, fun hh => hh, fun hh => hh, ?_, ?_⟩
  · by_cases hl : (h e).is_linked
    · have hbody : remove h e =
          setNext (setPrev (removeStep2 (removeStep1 h e) e) e none) e none := by
        simp [remove, hl]
      rw [hbody]
      exact hook_eq_none_none _ (by rw [setNext_prev, setPrev_prev_self])
        (by rw [setNext_next_self])
    · have hid : remove h e = h := by simp [remove, hl]
      rw [hid]
      obtain ⟨hp, hn⟩ := (is_linked_false_iff (h e)).mp (by simpa using hl)
      exact hook_eq_none_none _ hp hn
  · intro j hje hjp hjn
    by_cases hl : (h e).is_linked
    · have hbody : remove h e =
          setNext (setPrev (removeStep2 (removeStep1 h e) e) e none) e none := by
        simp [remove, hl]
      rw [hbody, setNext_apply_of_ne _ _ _ hje, setPrev_apply_of_ne _ _ _ hje]
      have h2j : removeStep2 (removeStep1 h e) e j = removeStep1 h e j := by
        rw [removeStep2, h1e_next]
        cases hn : (h e).next with
        | none => rfl
        | some nn =>
          have hjnn : j ≠ nn := fun hctr => hjn (by rw [hn, hctr])
          exact setPrev_apply_of_ne _ _ _ hjnn
      rw [h2j]
      exact h1j j hjp
    · simp [remove, hl]

theorem C9_remove_frame_witness :
    (remove_call (fun j => if j = 0 then (⟨none, some 1⟩ : Hook)
        else if j = 1 then ⟨some 0, none⟩ else ⟨none, none⟩)
      ⟨some 0, some 1, 2⟩ 0).2.head = some 0 ∧
    (remove (fun j => if j = 0 then (⟨none, some 1⟩ : Hook)
        else if j = 1 then ⟨some 0, none⟩ else ⟨none, none⟩) 0) 0 = ⟨none, none⟩ ∧
    (remove (fun j => if j = 0 then (⟨none, some 1⟩ : Hook)
        else if j = 1 then ⟨some 0, none⟩ else ⟨none, none⟩) 0) 2 = ⟨none, none⟩ := by
  have hc := C9_remove_frame (fun j => if j = 0 then (⟨none, some 1⟩ : Hook)
    else if j = 1 then ⟨some 0, none⟩ else ⟨none, none⟩) 0 ⟨some 0, some 1, 2⟩
  refine ⟨hc.2.1 rfl, hc.2.2.2.1, ?_⟩
  rw [hc.2.2.2.2 2 (by decide) (by decide) (by decide)]
  rfl

/-- C10: incrementing or decrementing the end cursor (`m_node == nullptr`) is
a no-op that leaves it at end, so decrementing the end cursor never reaches
any node, in particular not the last element of a non-empty list. -/
theorem C10_end_cursor_no_op (h : Heap) :
    iterInc h none = none ∧ iterDec h none = none ∧
    ∀ t : Nat, iterDec h none ≠ some t :=
  ⟨rfl, rfl, fun t => by simp [iterDec]⟩

theorem lastOr_irrel {ys : List Nat} (hne : ys ≠ []) (p q : Option Nat) :
    lastOr ys p = lastOr ys q := by
  cases ys with
  | nil => exact absurd rfl hne
  | cons y yr => simp

/-- C5: `merge` concatenates the source chain after the destination and
whole-list `splice` moves the whole source chain; both leave the source empty
and the destination's size equal to the sum of the prior sizes. -/
theorem C5_merge_splice_move_all (h : Heap) (L other : ListState)
    (xs ys : List Nat) (hL : Rep h L xs) (hO : Rep h other ys)
    (hdisj : ∀ a ∈ xs, a ∉ ys) :
    (∃ h' L', merge h L other = (h', L', ⟨none, none, 0⟩) ∧
      Rep h' L' (xs ++ ys) ∧ L'.size = L.size + other.size) ∧
    (∀ pos, (splice_list h L other pos).2.2 = ⟨none, none, 0⟩ ∧
      (splice_list h L other pos).2.1.size = L.size + other.size) := by
  have hnodup_app : (xs ++ ys).Nodup := by
    rw [List.nodup_append]
    exact ⟨hL.nodup, hO.nodup, hdisj⟩
  constructor
  · cases hys : ys with
    | nil =>
      subst hys
      have hoe : other = ⟨none, none, 0⟩ := (Rep.nil_iff h other).mp hO
      refine ⟨h, L, ?_, by simpa using hL, ?_⟩
      · rw [hoe]; simp [merge]
      · rw [hoe]; simp
    | cons y yrest =>
      subst hys
      have hsz : other.size ≠ 0 := by rw [hO.size_eq]; simp
      have hohead : other.head = some y := by rw [hO.head_eq]; rfl
      have hynx : y ∉ xs := fun hctr => hdisj y hctr (by simp)
      cases hxs : xs with
      | nil =>
        subst hxs
        have hle : L = ⟨none, none, 0⟩ := (Rep.nil_iff h L).mp hL
        refine ⟨h, ⟨other.head, other.tail, L.size + other.size⟩, ?_, ?_, rfl⟩
        · rw [hle]; simp [merge, hsz]
        · refine ⟨by rw [hO.head_eq]; rfl, by rw [hO.tail_eq]; rfl, ?_, ?_, ?_⟩
          · rw [hle, hO.size_eq]; simp
          · simpa using hO.seg
          · simpa using hO.nodup
      | cons x xrest =>
        subst hxs
        obtain ⟨t, ht, htm⟩ :=
          mem_of_lastOr (x :: xrest) none (lastOr (x :: xrest) none) (by simp) rfl
        have htail : L.tail = some t := by rw [hL.tail_eq, ht]
        have htny : t ∉ y :: yrest := hdisj t htm
        refine ⟨setPrev (setNext h t (some y)) y (some t),
          ⟨L.head, other.tail, L.size + other.size⟩, ?_, ?_, rfl⟩
        · simp [merge, hsz, htail, hohead]
        · have hseg_xs : dlseg (setPrev (setNext h t (some y)) y (some t))
              none (x :: xrest) (some y) := by
            refine dlseg_setPrev_not_mem _ hynx ?_
            have hstep := dlseg_setNext_last (h := h) (v := some y) ht hL.nodup hL.seg
            exact hstep
          have hseg_ys : dlseg (setPrev (setNext h t (some y)) y (some t))
              (some t) (y :: yrest) none := by
            refine dlseg_setPrev_head (p := none) (some t) rfl hO.nodup ?_
            exact dlseg_setNext_not_mem _ htny hO.seg
          refine ⟨?_, ?_, ?_, ?_, hnodup_app⟩
          · rw [hL.head_eq]; rfl
          · rw [hO.tail_eq, lastOr_append, ht]
            exact lastOr_irrel (by simp) none (some t)
          · rw [hL.size_eq, hO.size_eq, List.length_append]
          · refine dlseg_append ?_ ?_
            · exact hseg_xs
            · rw [ht]; exact hseg_ys
  · intro pos
    by_cases hsz : other.size = 0
    · have hoe : other = ⟨none, none, 0⟩ := by
        have hys0 : ys = [] := by
          have := hO.size_eq
          rw [hsz] at this
          exact (List.eq_nil_of_length_eq_zero this.symm)
        exact (Rep.nil_iff h other).mp (hys0 ▸ hO)
      rw [hoe]
      simp [splice_list]
    · cases pos with
      | none =>
        cases htl : L.tail with
        | none => simp [splice_list, hsz, htl]
        | some t => simp [splice_list, hsz, htl]
      | some p => simp [splice_list, hsz]

theorem lastOr_some_getLastD (l : List Nat) (a : Nat) :
    lastOr l (some a) = some (l.getLast?.getD a) := by
  induction l generalizing a with
  | nil => rfl
  | cons b l' ih =>
    rw [lastOr_cons, ih b, List.getLast?_cons]
    rfl

/-- The last node of a segment carries the segment's right boundary in its
`next` field. -/
theorem dlseg_lastOr_next {h : Heap} {p n : Option Nat} {xs : List Nat} {t : Nat}
    (hs : dlseg h p xs n) (ht : lastOr xs none = some t) : (h t).next = n := by
  induction xs generalizing p with
  | nil => simp at ht
  | cons a rest ih =>
    obtain ⟨_, h2, h3⟩ := hs
    cases hr : rest with
    | nil =>
      subst hr
      obtain rfl : a = t := by simpa using ht
      simpa using h2
    | cons b l =>
      subst hr
      refine ih h3 ?_
      rw [lastOr_irrel (by simp) none (some a)]
      simpa using ht

theorem C5_merge_splice_move_all_witness :
    ∃ h' L', merge (fun j => if j = 0 then (⟨none, none⟩ : Hook)
        else ⟨none, none⟩) ⟨some 0, some 0, 1⟩ ⟨some 1, some 1, 1⟩ =
      (h', L', ⟨none, none, 0⟩) ∧
      Rep h' L' [0, 1] ∧ L'.size = 2 := by
  have hc := C5_merge_splice_move_all (fun j => if j = 0 then (⟨none, none⟩ : Hook)
      else ⟨none, none⟩) ⟨some 0, some 0, 1⟩ ⟨some 1, some 1, 1⟩ [0] [1]
    ⟨rfl, rfl, rfl, ⟨rfl, rfl, trivial⟩, by simp⟩
    ⟨rfl, rfl, rfl, ⟨rfl, rfl, trivial⟩, by simp⟩
    (by decide)
  obtain ⟨h', L', heq, hrep, hsize⟩ := hc.1
  exact ⟨h', L', heq, hrep, hsize⟩

/-- C7: a range splice whose half-open run `[first, last)` spans the entire
source list (`first = other.head`, `last = end`) produces exactly the same
heap and the same two list states as the whole-list splice, at every
destination position. -/
theorem C7_full_range_splice_eq_whole (h : Heap) (L other : ListState)
    (xs ys : List Nat) (pos : Option Nat) (fuel : Nat)
    (hL : Rep h L xs) (hO : Rep h other ys) (hdisj : ∀ a ∈ xs, a ∉ ys)
    (hfuel : ys.length ≤ fuel) :
    splice_range h L other pos other.head none fuel =
      some (splice_list h L other pos) := by
  cases hys : ys with
  | nil =>
    subst hys
    have hoe : other = ⟨none, none, 0⟩ := (Rep.nil_iff h other).mp hO
    rw [hoe]
    simp [splice_range, splice_list]
  | cons y yr =>
    subst hys
    have hsz : other.size ≠ 0 := by rw [hO.size_eq]; simp
    have hohead : other.head = some y := by rw [hO.head_eq]; rfl
    have hyprev : (h y).prev = none := hO.seg.1
    obtain ⟨t, ht, htm⟩ :=
      mem_of_lastOr (y :: yr) none (lastOr (y :: yr) none) (by simp) rfl
    have hotail : other.tail = some t := by rw [hO.tail_eq, ht]
    have htnext : (h t).next = none := dlseg_lastOr_next hO.seg ht
    have hbt : (y :: yr).getLast?.getD y = t := by
      have hp1 := lastOr_some_getLastD (y :: yr) y
      rw [lastOr_irrel (by simp) (some y) none, ht] at hp1
      exact (Option.some.inj hp1).symm
    have hcount : other.size = (y :: yr).length := by rw [hO.size_eq]
    have hrn : runNodes h (some y) none fuel = some (y :: yr) := by
      have hr := runNodes_of_dlseg hO.seg (fun a _ => by simp) fuel hfuel
      simpa using hr
    rw [hohead]
    cases pos with
    | none =>
      cases htl : L.tail with
      | some tl =>
        have htlm : tl ∈ xs := by
          refine lastOr_mem xs tl ?_
          rw [← hL.tail_eq]; exact htl
        have htlt : tl ≠ t := fun hctr => hdisj tl htlm (by rw [hctr]; exact htm)
        have hlhs : splice_range h L other none (some y) none fuel =
            some (setNext (setPrev (setNext h tl (some y)) y (some tl)) t none,
              ⟨L.head, some t, L.size + (y :: yr).length⟩,
              ⟨none, none, other.size - (y :: yr).length⟩) := by
          simp [splice_range, hrn, hyprev, htl, hbt]
        have hrhs : splice_list h L other none =
            (setPrev (setNext h tl (some y)) y (some tl),
              ⟨L.head, other.tail, L.size + other.size⟩, ⟨none, none, 0⟩) := by
          simp [splice_list, hsz, htl, hohead]
        rw [hlhs, hrhs]
        have hH : (setPrev (setNext h tl (some y)) y (some tl) t).next = none := by
          rw [setPrev_next, setNext_next_of_ne h tl (some y) (Ne.symm htlt)]
          exact htnext
        rw [setNext_self_value _ _ hH]
        simp [hotail, hcount]
      | none =>
        have hlhs : splice_range h L other none (some y) none fuel =
            some (setNext (setPrev h y none) t none,
              ⟨some y, some t, L.size + (y :: yr).length⟩,
              ⟨none, none, other.size - (y :: yr).length⟩) := by
          simp [splice_range, hrn, hyprev, htl, hbt]
        have hrhs : splice_list h L other none =
            (h, ⟨some y, other.tail, L.size + other.size⟩, ⟨none, none, 0⟩) := by
          simp [splice_list, hsz, htl, hohead]
        rw [hlhs, hrhs]
        rw [setPrev_self_value h y hyprev, setNext_self_value h t htnext]
        simp [hotail, hcount]
    | some p =>
      cases hpq : (h p).prev with
      | some q =>
        have hlhs : splice_range h L other (some p) (some y) none fuel =
            some (setNext (setPrev (setPrev (setNext h q (some y)) y (some q))
                p (some t)) t (some p),
              ⟨L.head, L.tail, L.size + (y :: yr).length⟩,
              ⟨none, none, other.size - (y :: yr).length⟩) := by
          simp [splice_range, hrn, hyprev, hpq, hbt]
        have hrhs : splice_list h L other (some p) =
            (setNext (setPrev (setPrev (setNext h q (some y)) y (some q))
                p (some t)) t (some p),
              ⟨L.head, L.tail, L.size + other.size⟩, ⟨none, none, 0⟩) := by
          simp [splice_list, hsz, hohead, hpq, hotail]
        rw [hlhs, hrhs]
        simp [hcount]
      | none =>
        have hlhs : splice_range h L other (some p) (some y) none fuel =
            some (setNext (setPrev (setPrev h y none) p (some t)) t (some p),
              ⟨some y, L.tail, L.size + (y :: yr).length⟩,
              ⟨none, none, other.size - (y :: yr).length⟩) := by
          simp [splice_range, hrn, hyprev, hpq, hbt]
        have hrhs : splice_list h L other (some p) =
            (setNext (setPrev h p (some t)) t (some p),
              ⟨some y, L.tail, L.size + other.size⟩, ⟨none, none, 0⟩) := by
          simp [splice_list, hsz, hohead, hpq, hotail]
        rw [hlhs, hrhs]
        rw [setPrev_self_value h y hyprev]
        simp [hcount]

theorem C7_full_range_splice_eq_whole_witness :
    splice_range (fun j => if j = 1 then (⟨none, some 2⟩ : Hook)
        else if j = 2 then ⟨some 1, none⟩ else ⟨none, none⟩)
      ⟨some 0, some 0, 1⟩ ⟨some 1, some 2, 2⟩ none (some 1) none 2 =
      some (splice_list (fun j => if j = 1 then (⟨none, some 2⟩ : Hook)
        else if j = 2 then ⟨some 1, none⟩ else ⟨none, none⟩)
        ⟨some 0, some 0, 1⟩ ⟨some 1, some 2, 2⟩ none) := by
  have hc := C7_full_range_splice_eq_whole
    (fun j => if j = 1 then (⟨none, some 2⟩ : Hook)
      else if j = 2 then ⟨some 1, none⟩ else ⟨none, none⟩)
    ⟨some 0, some 0, 1⟩ ⟨some 1, some 2, 2⟩ [0] [1, 2] none 2
    ⟨rfl, rfl, rfl, ⟨rfl, rfl, trivial⟩, by simp⟩
    ⟨rfl, rfl, rfl, ⟨rfl, rfl, ⟨rfl, rfl, trivial⟩⟩, by simp⟩
    (by decide) (by decide)
  simpa using hc

/-! ## The sort operation, modelled from the spec

`sort()` (lines 764-767) delegates to a comparator overload
`sort(comparator)`, but no such overload exists anywhere in the repository:
only its caller is in the sources.  The operation is therefore modelled from
the spec's words: a stable `O(n log n)` reordering of the chain into
non-descending order per the comparator, relinking hooks only. -/

/-- Modelled from the spec: the missing `sort(comparator)` reordering of the
chain's node sequence — a stable merge sort by the comparator. -/
def sort_modelled (cmp : Nat → Nat → Bool) (xs : List Nat) : List Nat :=
  xs.mergeSort cmp

/-- Relink the hooks of the nodes `xs` into one chain whose first node's
`prev` is `p` and whose last node's `next` is `none`. -/
def relinkGo (h : Heap) (p : Option Nat) : List Nat → Heap
  | [] => h
  | a :: rest => relinkGo (Function.update h a ⟨p, headOr rest none⟩) (some a) rest

/-- Modelled from the spec: the whole `sort(comparator)` operation on a list
state — read the chain, sort its node sequence stably, relink the hooks and
refresh `head`/`tail`; `count` is untouched by the relinking (`sort()` with
the default ordering is the instance at the element type's order). -/
def sort_op (cmp : Nat → Nat → Bool) (h : Heap) (L : ListState) :
    Heap × ListState :=
  let xs := visitN h L.head L.size
  let xs' := sort_modelled cmp xs
  (relinkGo h none xs', ⟨headOr xs' none, lastOr xs' none, xs'.length⟩)

theorem relinkGo_not_mem {i : Nat} :
    ∀ (xs : List Nat) (h : Heap) (p : Option Nat), i ∉ xs →
      relinkGo h p xs i = h i := by
  intro xs
  induction xs with
  | nil => intro h p _; rfl
  | cons a rest ih =>
    intro h p hi
    have hia : i ≠ a := fun hctr => hi (by simp [hctr])
    rw [relinkGo, ih _ _ (fun hctr => hi (by simp [hctr]))]
    exact Function.update_noteq hia _ h

theorem relinkGo_dlseg :
    ∀ (xs : List Nat) (h : Heap) (p : Option Nat), xs.Nodup →
      dlseg (relinkGo h p xs) p xs none := by
  intro xs
  induction xs with
  | nil => intro h p _; trivial
  | cons a rest ih =>
    intro h p hnd
    have hna : a ∉ rest := (List.nodup_cons.mp hnd).1
    have ha : relinkGo (Function.update h a ⟨p, headOr rest none⟩) (some a) rest a =
        ⟨p, headOr rest none⟩ := by
      rw [relinkGo_not_mem rest _ _ hna, Function.update_same]
    exact ⟨by rw [relinkGo, ha], by rw [relinkGo, ha],
      by rw [relinkGo]; exact ih _ (some a) (List.nodup_cons.mp hnd).2⟩

/-- C3 (modelled from the spec, the `sort(comparator)` overload being absent
from the sources): for a transitive, total comparator, sorting a represented
list yields a consistently linked list representing the stable merge sort of
the previous node sequence — a permutation (relinking only, same count),
pairwise non-descending, and keeping every comparator-sorted sublist of the
input (stability). -/
theorem C3_sort_modelled_correct (cmp : Nat → Nat → Bool) (h : Heap)
    (L : ListState) (xs : List Nat) (hrep : Rep h L xs)
    (htrans : ∀ a b c, cmp a b = true → cmp b c = true → cmp a c = true)
    (htotal : ∀ a b, (cmp a b || cmp b a) = true) :
    ∃ h', sort_op cmp h L =
        (h', ⟨headOr (sort_modelled cmp xs) none, lastOr (sort_modelled cmp xs) none,
          (sort_modelled cmp xs).length⟩) ∧
      Rep h' ⟨headOr (sort_modelled cmp xs) none, lastOr (sort_modelled cmp xs) none,
        (sort_modelled cmp xs).length⟩ (sort_modelled cmp xs) ∧
      (sort_modelled cmp xs).Perm xs ∧
      List.Pairwise (fun a b => cmp a b = true) (sort_modelled cmp xs) ∧
      (∀ c : List Nat, List.Pairwise (fun a b => cmp a b = true) c →
        c.Sublist xs → c.Sublist (sort_modelled cmp xs)) ∧
      (sort_modelled cmp xs).length = L.size := by
  have hxs : visitN h L.head L.size = xs := by
    rw [hrep.head_eq, hrep.size_eq]
    exact visitN_of_dlseg hrep.seg
  have hperm : (sort_modelled cmp xs).Perm xs := List.mergeSort_perm xs cmp
  have hnd : (sort_modelled cmp xs).Nodup := hperm.nodup_iff.mpr hrep.nodup
  refine ⟨relinkGo h none (sort_modelled cmp xs), ?_, ?_, hperm, ?_, ?_, ?_⟩
  · simp only [sort_op, hxs]
  · exact ⟨rfl, rfl, rfl, relinkGo_dlseg _ h none hnd, hnd⟩
  · exact List.sorted_mergeSort htrans htotal xs
  · intro c hc hsub
    exact List.sublist_mergeSort htrans htotal hc hsub
  · rw [hperm.length_eq, hrep.size_eq]

theorem C3_sort_modelled_correct_witness :
    ∃ h', sort_op (fun a b => decide (a ≤ b))
        (fun j => if j = 2 then (⟨none, some 1⟩ : Hook)
          else if j = 1 then ⟨some 2, none⟩ else ⟨none, none⟩)
        ⟨some 2, some 1, 2⟩ =
      (h', ⟨headOr (sort_modelled (fun a b => decide (a ≤ b)) [2, 1]) none,
        lastOr (sort_modelled (fun a b => decide (a ≤ b)) [2, 1]) none,
        (sort_modelled (fun a b => decide (a ≤ b)) [2, 1]).length⟩) ∧
      Rep h' ⟨headOr (sort_modelled (fun a b => decide (a ≤ b)) [2, 1]) none,
        lastOr (sort_modelled (fun a b => decide (a ≤ b)) [2, 1]) none,
        (sort_modelled (fun a b => decide (a ≤ b)) [2, 1]).length⟩
        (sort_modelled (fun a b => decide (a ≤ b)) [2, 1]) ∧
      (sort_modelled (fun a b => decide (a ≤ b)) [2, 1]).Perm [2, 1] ∧
      List.Pairwise (fun a b => decide (a ≤ b) = true)
        (sort_modelled (fun a b => decide (a ≤ b)) [2, 1]) ∧
      (∀ c : List Nat, List.Pairwise (fun a b => decide (a ≤ b) = true) c →
        c.Sublist [2, 1] → c.Sublist (sort_modelled (fun a b => decide (a ≤ b)) [2, 1])) ∧
      (sort_modelled (fun a b => decide (a ≤ b)) [2, 1]).length = 2 := by
  have hc := C3_sort_modelled_correct (fun a b => decide (a ≤ b))
    (fun j => if j = 2 then (⟨none, some 1⟩ : Hook)
      else if j = 1 then ⟨some 2, none⟩ else ⟨none, none⟩)
    ⟨some 2, some 1, 2⟩ [2, 1]
    ⟨by decide, by decide, by decide, by decide, by decide⟩
    (by intro a b c hab hbc; simp_all; omega)
    (by intro a b; simp [Bool.or_eq_true]; omega)
  exact hc

end IntrusiveListN
